import Mathlib

/-!
# Verification of the life-expectancy preprocessing pipeline

Shallow embedding of `scaler_pca.py`, a one-shot tabular preprocessing
script: mean imputation of numeric columns, label encoding of categorical
columns, a seeded train/test split, standardization, PCA retaining 80% of
variance, and persistence of the two fitted transforms.

Numeric data is modelled over `ℚ` (exact arithmetic in place of float64)
except for the standard deviation of the scaler, which needs `Real.sqrt`.
Missing values (NaN in the source) are modelled as `Option.none`.
-/

namespace ScalerPca

/-! ## Imputer (`SimpleImputer(strategy='mean')`, lines 19-20)

`num_imputer.fit_transform(df[numeric_columns])` replaces every missing
entry of a numeric column by the arithmetic mean of that column's
non-missing entries.  A column with no observed value at all is dropped
from the imputer's output, and the following pandas assignment
`df[numeric_columns] = ...` then fails with a shape-mismatch `ValueError`
("Columns must be same length as key"). -/

/-- The non-missing entries of a column. -/
def observed (c : List (Option ℚ)) : List ℚ :=
  c.filterMap id

/-- Arithmetic mean of the non-missing entries of a column
(the statistic `SimpleImputer(strategy='mean')` fits). -/
def obsMean (c : List (Option ℚ)) : ℚ :=
  (observed c).sum / (observed c).length

/-- Mean imputation of one column: missing entries become the column's
observed mean, present entries are unchanged. -/
def imputeCol (c : List (Option ℚ)) : List ℚ :=
  c.map (fun o => o.getD (obsMean c))

/-- The columns the imputer keeps: those with at least one observed value. -/
def keptCols (cols : List (List (Option ℚ))) : List (List (Option ℚ)) :=
  cols.filter (fun c => c.any Option.isSome)

/-- Lines 19-20 as a whole: `SimpleImputer.fit_transform` over the numeric
columns followed by the pandas column assignment.  The imputer drops
all-missing columns, so the assignment raises a `ValueError` exactly when
some numeric column has no observed value; otherwise every column is mean
imputed in place. -/
def imputeNumericStage (cols : List (List (Option ℚ))) :
    Except String (List (List ℚ)) :=
  if (keptCols cols).length = cols.length then
    .ok ((keptCols cols).map imputeCol)
  else
    .error "Columns must be same length as key"

/-- Lines 19-20 specialised to named numeric columns (the data frame keeps
column names): the same guard as `imputeNumericStage`, with each kept
column imputed in place under its name. -/
def imputeNamed (df : List (String × List (Option ℚ))) :
    Except String (List (String × List ℚ)) :=
  if df.all (fun p => p.2.any Option.isSome) then
    .ok (df.map (fun p => (p.1, imputeCol p.2)))
  else
    .error "Columns must be same length as key"

/-- Line 28: `target = df['Life expectancy']` — the first column with the
target's name, read from the imputed frame. -/
def lookupCol (df : List (String × List ℚ)) (name : String) : List ℚ :=
  ((df.find? (fun p => p.1 = name)).map (fun p => p.2)).getD []

/-- Lines 19-20 then 28 composed: impute the numeric columns of the full
frame, then extract the target column.  The target is separated only
after imputation has run over every numeric column. -/
def pipelineTarget (df : List (String × List (Option ℚ))) :
    Except String (List ℚ) :=
  (imputeNamed df).map (fun d => lookupCol d "Life expectancy")

/-! ## Encoder (`LabelEncoder`, lines 23-25)

`le.fit_transform(df[col])` is called once per categorical column, so the
map is refit from that column's values each time.  `LabelEncoder` sets
`classes_ = np.unique(values)` (the distinct values in sorted order) and
encodes each value by its index in `classes_`. -/

/-- Code-point lexicographic comparison of character lists — the string
order `np.unique` sorts by. -/
def strLeB : List Char → List Char → Bool
  | [], _ => true
  | _ :: _, [] => false
  | a :: as, b :: bs =>
    if a.toNat < b.toNat then true
    else if b.toNat < a.toNat then false
    else strLeB as bs

/-- `classes_` of the fitted encoder: the distinct values of the column in
sorted order (`np.unique`). -/
def leClasses (col : List String) : List String :=
  List.insertionSort (fun a b => strLeB a.data b.data = true) col.dedup

/-- The integer code assigned to one value: its index in `classes_`. -/
def leCode (col : List String) (v : String) : ℕ :=
  (leClasses col).indexOf v

/-- `le.fit_transform(df[col])`: the column overwritten by its codes. -/
def leFitTransform (col : List String) : List ℕ :=
  col.map (leCode col)

/-- `le.inverse_transform` on one code: the class at that index. -/
def leDecode (col : List String) (code : ℕ) : String :=
  (leClasses col).getD code ""

/-! ## Splitter (`train_test_split(..., test_size=0.2, random_state=42)`, line 32)

sklearn draws `permutation = rng.permutation(n)` from the seeded RNG,
takes the first `n_test = ceil(0.2*n)` entries as test indices and the
next `n_train = floor(0.8*n)` (i.e. all remaining) entries as train
indices, and applies the same index lists to the features and the target.
The Mersenne-Twister permutation itself is not re-implemented here; the
split is stated for any `perm` that is a permutation of `range n`, which
the RNG output is.  Determinism is inherent: the permutation is a pure
function of the seed 42 and the row count. -/

/-- `n_test = ceil(0.2 * n)`. -/
def nTest (n : ℕ) : ℕ := (n + 4) / 5

/-- `n_train = floor(0.8 * n)`. -/
def nTrain (n : ℕ) : ℕ := 4 * n / 5

/-- Fancy indexing `X[idxs]`: the rows of `X` at the given indices
(indices produced by the splitter are always in range; out-of-range
indices fall back to `d`). -/
def selectRows {α : Type} (X : List α) (idxs : List ℕ) (d : α) : List α :=
  idxs.map (fun i => X.getD i d)

/-- `train_test_split(features, target, test_size=0.2, random_state=42)`:
test rows are the first `nTe` entries of the permutation, train rows are
the remaining entries, and the very same index lists are applied to `X`
and `y`.  Returns `(X_train, X_test, y_train, y_test)`. -/
def trainTestSplit {α β : Type} (perm : List ℕ) (nTe : ℕ)
    (X : List α) (y : List β) (dX : α) (dY : β) :
    List α × List α × List β × List β :=
  (selectRows X (perm.drop nTe) dX, selectRows X (perm.take nTe) dX,
   selectRows y (perm.drop nTe) dY, selectRows y (perm.take nTe) dY)

/-! ## Reducer component selection (`PCA(n_components=0.8)`, line 39)

With `0 < n_components < 1`, `PCA.fit` computes the full spectrum of
explained-variance ratios (non-negative, summing to 1) and sets
`n_components_ = np.searchsorted(cumsum(ratios), 0.8, side='right') + 1`.
`searchsorted(..., side='right')` on the non-decreasing cumulative-sum
array returns the number of entries `≤ 0.8`. -/

/-- The cumulative sum over the first `k` components of the
explained-variance-ratio list is `(l.take k).sum`; `cumRatios` lists these
sums for `k = 1, ..., l.length` (numpy's `cumsum`). -/
def cumRatios : List ℚ → List ℚ
  | [] => []
  | r :: rs => r :: (cumRatios rs).map (fun s => r + s)

/-- `np.searchsorted(cumsum, t, side='right') + 1`: one more than the
number of cumulative sums that are `≤ t`.  This is the number of
components `PCA(n_components=t)` retains. -/
def pcaNComponents (l : List ℚ) (t : ℚ) : ℕ :=
  (cumRatios l).countP (fun s => decide (s ≤ t)) + 1

/-- Modelled from the spec: "the number of retained components is the
minimum k such that cumulative explained variance ratio over the first k
components ≥ 0.8" — the least `k ≥ 1` whose prefix sum meets or exceeds
`t` (falling back to retaining everything when none does). -/
def minCompGE (l : List ℚ) (t : ℚ) : ℕ :=
  match (List.range l.length).find? (fun i => decide (t ≤ (l.take (i + 1)).sum)) with
  | some i => i + 1
  | none => l.length

/-! ## Reducer transform (`pca.fit_transform` / `pca.transform`, lines 40-41)

The fitted state is the matrix of the `k` retained component loadings;
`transform` projects every input row onto each of them.  The
eigendecomposition inside `fit` is kept abstract (a parameter of the
stage): the claims about the transform concern only its shape and the
train/test discipline, both independent of the loadings' values. -/

structure PCAState where
  components : List (List ℚ)

/-- Dot product of a data row with one component's loadings. -/
def dotQ (u v : List ℚ) : ℚ :=
  (u.zipWith (fun a b => a * b) v).sum

/-- `pca.transform(X)`: each row projected onto the `k` retained
components, so each output row has exactly `k` entries. -/
def pcaTransform (X : List (List ℚ)) (s : PCAState) : List (List ℚ) :=
  X.map (fun row => s.components.map (fun comp => dotQ row comp))

/-- Lines 40-41: `X_train_pca = pca.fit_transform(X_train_scaled)` then
`X_test_pca = pca.transform(X_test_scaled)` — the state is fit from the
training matrix only and both partitions are transformed with it. -/
def pcaStage (fit : List (List ℚ) → PCAState)
    (Xtr Xte : List (List ℚ)) : List (List ℚ) × List (List ℚ) :=
  (pcaTransform Xtr (fit Xtr), pcaTransform Xte (fit Xtr))

/-! ## Persister (`joblib.dump`, lines 44-45)

Two sequential writes: `scaler.pkl` first, then `pca.pkl`.  Each write
either succeeds or raises; a raise aborts the script at that point.
`persistStage` records which artifact files a run leaves behind together
with the run's outcome, as a function of the two writes' results. -/

/-- Lines 44-45: dump the scaler, then dump the PCA.  Returns the list of
artifact files written by this run and the surfaced outcome. -/
def persistStage (w1 w2 : Except String Unit) :
    List String × Except String Unit :=
  match w1 with
  | .error e => ([], .error e)
  | .ok _ =>
    match w2 with
    | .error e => (["scaler.pkl"], .error e)
    | .ok _ => (["scaler.pkl", "pca.pkl"], .ok ())

/-! ## Scaler (`StandardScaler`, lines 35-37)

`scaler.fit_transform(X_train)` computes per-column mean and standard
deviation (population, `ddof=0`) from the training rows, and
`scaler.transform(X_test)` reuses exactly that fitted state.  A zero
standard deviation is replaced by 1 by sklearn's
`_handle_zeros_in_scale`, so `fit` never fails on a constant column and
`transform` never divides by zero.  Real arithmetic is needed for the
square root, so this section is over `ℝ`. -/

/-- Column `j` of a row-major matrix. -/
def colAt (X : List (List ℝ)) (j : ℕ) : List ℝ :=
  X.map (fun row => row.getD j 0)

/-- Number of feature columns (rows are rectangular in the source frame). -/
def numCols (X : List (List ℝ)) : ℕ :=
  (X.headD []).length

/-- Mean of a column (the scaler's `mean_`). -/
noncomputable def colMeanR (c : List ℝ) : ℝ :=
  c.sum / c.length

/-- Population variance of a column (`ddof=0`, the scaler's `var_`). -/
noncomputable def colVarR (c : List ℝ) : ℝ :=
  ((c.map (fun x => (x - colMeanR c) ^ 2)).sum) / c.length

/-- The scaler's `scale_`: the standard deviation, with a zero standard
deviation replaced by 1 (`_handle_zeros_in_scale`). -/
noncomputable def scaleOf (c : List ℝ) : ℝ :=
  if colVarR c = 0 then 1 else Real.sqrt (colVarR c)

/-- The fitted scaler: per-column `mean_` and `scale_`. -/
structure ScalerState where
  means : List ℝ
  stds : List ℝ

/-- `scaler.fit(X_train)` (line 36 fits before transforming): per-column
mean and standard deviation computed from the training rows only. -/
noncomputable def scalerFit (X : List (List ℝ)) : ScalerState :=
  ⟨(List.range (numCols X)).map (fun j => colMeanR (colAt X j)),
   (List.range (numCols X)).map (fun j => scaleOf (colAt X j))⟩

/-- `scaler.transform(X)` (lines 36-37): every entry `x` in column `j`
becomes `(x - mean_j) / std_j` using the fitted state, which is not
recomputed from `X`. -/
noncomputable def scalerTransform (X : List (List ℝ)) (s : ScalerState) :
    List (List ℝ) :=
  X.map (fun row =>
    (List.range row.length).map (fun j =>
      (row.getD j 0 - s.means.getD j 0) / s.stds.getD j 1))

/-- Lines 35-37 as a whole:
`X_train_scaled = scaler.fit_transform(X_train)` and
`X_test_scaled = scaler.transform(X_test)` — the state is fit from the
training matrix only, and the test matrix is transformed with that very
state. -/
noncomputable def scalerStage (Xtr Xte : List (List ℝ)) :
    List (List ℝ) × List (List ℝ) :=
  (scalerTransform Xtr (scalerFit Xtr), scalerTransform Xte (scalerFit Xtr))

/-! ## Imputer lemmas -/

theorem imputeCol_length (c : List (Option ℚ)) : (imputeCol c).length = c.length :=
  List.length_map c _

theorem imputeCol_getD_of_none (c : List (Option ℚ)) (i : ℕ)
    (hi : i < c.length) (h : c.getD i none = none) :
    (imputeCol c).getD i 0 = obsMean c := by
  have hi' : i < (imputeCol c).length := by rw [imputeCol_length]; exact hi
  rw [List.getD_eq_getElem _ _ hi'] at *
  rw [List.getD_eq_getElem _ _ hi] at h
  simp only [imputeCol, List.getElem_map, h, Option.getD_none]

theorem imputeCol_getD_of_some (c : List (Option ℚ)) (i : ℕ) (x : ℚ)
    (h : c.getD i none = some x) :
    (imputeCol c).getD i 0 = x := by
  have hi : i < c.length := by
    by_contra hn
    rw [List.getD_eq_default _ _ (Nat.le_of_not_lt hn)] at h
    exact Option.noConfusion h
  have hi' : i < (imputeCol c).length := by rw [imputeCol_length]; exact hi
  rw [List.getD_eq_getElem _ _ hi']
  rw [List.getD_eq_getElem _ _ hi] at h
  simp only [imputeCol, List.getElem_map, h, Option.getD_some]

end ScalerPca

namespace ScalerPca

/-- C4: for every numeric column with at least one non-missing value,
imputation yields a column of the same length with no missing entries
(the result is a total list of rationals), every previously-missing entry
becomes the arithmetic mean of the column's original non-missing values,
every present entry is unchanged, and the fill value is exactly that mean
of the full (pre-split) column — the imputer runs on the whole dataset at
lines 19-20, before the split at line 32. -/
theorem c4_impute_mean_fill (c : List (Option ℚ)) (h : c.any Option.isSome = true) :
    (imputeCol c).length = c.length ∧
    (∀ i, i < c.length → c.getD i none = none →
      (imputeCol c).getD i 0 = obsMean c) ∧
    (∀ i x, c.getD i none = some x → (imputeCol c).getD i 0 = x) ∧
    obsMean c = (observed c).sum / (observed c).length := by
  refine ⟨imputeCol_length c, ?_, ?_, rfl⟩
  · intro i hi hnone
    exact imputeCol_getD_of_none c i hi hnone
  · intro i x hx
    exact imputeCol_getD_of_some c i x hx

/-- C4 witness: the column `[some 1, none, some 3]` has observed mean `2`
and imputes to a full column whose middle entry is that mean. -/
theorem c4_impute_mean_fill_witness :
    (imputeCol [some 1, none, some 3]).getD 1 0 = obsMean [some 1, none, some 3] ∧
    obsMean [some 1, none, some 3] = 2 :=
  ⟨(c4_impute_mean_fill [some 1, none, some 3] (by decide)).2.1 1 (by decide) (by decide),
   by norm_num [obsMean, observed, List.filterMap_cons]⟩

/-- C9: a numeric column whose entries are all missing makes the
imputation stage fail deterministically: `SimpleImputer` drops the
all-missing column, and the pandas assignment of the imputer's output
back into the frame then raises its shape-mismatch `ValueError`.  This is
the "fails with an error" branch of the two behaviors the spec permits,
and it is the same outcome on every run. -/
theorem c9_all_missing_column_errors (cols : List (List (Option ℚ)))
    (c : List (Option ℚ)) (hc : c ∈ cols) (hall : c.all Option.isNone = true) :
    imputeNumericStage cols = .error "Columns must be same length as key" := by
  have hanyc : c.any Option.isSome = false := by
    rw [Bool.eq_false_iff]
    intro hany
    obtain ⟨o, ho, hso⟩ := List.any_eq_true.mp hany
    have := List.all_eq_true.mp hall o ho
    simp [Option.isNone_iff_eq_none.mp this] at hso
  have hlt : (keptCols cols).length < cols.length := by
    have : ∃ x ∈ cols, ¬ (x.any Option.isSome = true) := ⟨c, hc, by simp [hanyc]⟩
    simpa [keptCols, List.length_filter_lt_length_iff_exists] using this
  unfold imputeNumericStage
  rw [if_neg (Nat.ne_of_lt hlt)]

/-- C9 witness: a frame with one all-missing numeric column and one
observed column fails with the shape-mismatch error. -/
theorem c9_all_missing_column_errors_witness :
    imputeNumericStage [[none], [some 1]] = .error "Columns must be same length as key" :=
  c9_all_missing_column_errors [[none], [some 1]] [none] (by decide) (by decide)

/-! ## Encoder lemmas -/

theorem mem_leClasses {col : List String} {v : String} :
    v ∈ leClasses col ↔ v ∈ col := by
  unfold leClasses
  rw [(List.perm_insertionSort _ _).mem_iff, List.mem_dedup]

theorem leClasses_nodup (col : List String) : (leClasses col).Nodup :=
  (List.perm_insertionSort _ _).nodup_iff.mpr (List.nodup_dedup col)

theorem leCode_lt_length {col : List String} {v : String} (hv : v ∈ col) :
    leCode col v < (leClasses col).length :=
  List.indexOf_lt_length.mpr (mem_leClasses.mpr hv)

theorem leDecode_leCode {col : List String} {v : String} (hv : v ∈ col) :
    leDecode col (leCode col v) = v := by
  unfold leDecode
  rw [List.getD_eq_getElem _ _ (leCode_lt_length hv)]
  exact List.getElem_indexOf (leCode_lt_length hv)

/-- C7: label encoding is a bijection per column.  Every observed value's
code indexes the column's class list and decodes back to the value
(round trip); distinct observed values get distinct codes; the assigned
codes are exactly `{0, ..., #distinct values - 1}` (every class index is
assigned to some entry and every assigned code is a class index).  The
encoder is refit from each column's own values (`le.fit_transform(df[col])`
inside the loop), so the map depends on nothing but that column. -/
theorem c7_label_encoder_bijection (col : List String) (v : String) (hv : v ∈ col) :
    leDecode col (leCode col v) = v ∧
    leCode col v < (leClasses col).length ∧
    (∀ w ∈ col, leCode col v = leCode col w → v = w) ∧
    (∀ k, k < (leClasses col).length → k ∈ leFitTransform col) ∧
    (∀ k ∈ leFitTransform col, k < (leClasses col).length) := by
  refine ⟨leDecode_leCode hv, leCode_lt_length hv, ?_, ?_, ?_⟩
  · intro w hw heq
    have h1 := leDecode_leCode hv
    have h2 := leDecode_leCode hw
    rw [← h1, ← h2, heq]
  · intro k hk
    have hmem : (leClasses col)[k] ∈ col := mem_leClasses.mp (List.getElem_mem hk)
    have hcode : leCode col ((leClasses col)[k]) = k :=
      List.indexOf_getElem (leClasses_nodup col) k hk
    exact List.mem_map.mpr ⟨(leClasses col)[k], hmem, hcode⟩
  · intro k hk
    obtain ⟨w, hw, hwk⟩ := List.mem_map.mp hk
    rw [← hwk]
    exact leCode_lt_length hw

/-- C7 witness: in the column `["b", "a", "b"]` the classes are
`["a", "b"]`, the value "a" receives code 0 and decodes back to "a", and
the encoded column is `[1, 0, 1]`. -/
theorem c7_label_encoder_bijection_witness :
    leDecode ["b", "a", "b"] (leCode ["b", "a", "b"] "a") = "a" ∧
    leFitTransform ["b", "a", "b"] = [1, 0, 1] :=
  ⟨(c7_label_encoder_bijection ["b", "a", "b"] "a" (by decide)).1, by decide⟩

/-! ## Splitter lemmas -/

theorem nTest_le (n : ℕ) : nTest n ≤ n := by
  unfold nTest
  omega

theorem nTest_add_nTrain (n : ℕ) : nTest n + nTrain n = n := by
  unfold nTest nTrain
  omega

theorem selectRows_getD {α : Type} (X : List α) (idxs : List ℕ) (d : α)
    (k : ℕ) (hk : k < idxs.length) :
    (selectRows X idxs d).getD k d = X.getD (idxs.getD k 0) d := by
  unfold selectRows
  rw [List.getD_eq_getElem _ _ (by simpa using hk), List.getElem_map,
    List.getD_eq_getElem _ _ hk]

/-- C5: the split at line 32 with `test_size=0.2, random_state=42`.  The
seeded generator's output is a permutation `perm` of `range n`, a pure
function of the seed and the row count — hence the identical partition on
every run; the theorem holds for every such permutation.  The test rows
are the first `ceil(n/5)` permuted indices, the train rows the rest:
together they cover every row index exactly once, the four outputs have
the partition's sizes, and the k-th train (resp. test) feature row and
target entry are taken from the same original row index — so feature/
target row correspondence is preserved. -/
theorem c5_split_partition {α β : Type} (n : ℕ) (perm : List ℕ)
    (X : List α) (y : List β) (dX : α) (dY : β)
    (hperm : perm.Perm (List.range n)) (hX : X.length = n) (hy : y.length = n) :
    (∀ i, (i ∈ perm.drop (nTest n) ∨ i ∈ perm.take (nTest n)) ↔ i < n) ∧
    (∀ i, i ∈ perm.take (nTest n) → i ∉ perm.drop (nTest n)) ∧
    ((trainTestSplit perm (nTest n) X y dX dY).1.length = nTrain n ∧
     (trainTestSplit perm (nTest n) X y dX dY).2.1.length = nTest n ∧
     (trainTestSplit perm (nTest n) X y dX dY).2.2.1.length = nTrain n ∧
     (trainTestSplit perm (nTest n) X y dX dY).2.2.2.length = nTest n) ∧
    (∀ k, k < nTrain n →
      (trainTestSplit perm (nTest n) X y dX dY).1.getD k dX =
        X.getD ((perm.drop (nTest n)).getD k 0) dX ∧
      (trainTestSplit perm (nTest n) X y dX dY).2.2.1.getD k dY =
        y.getD ((perm.drop (nTest n)).getD k 0) dY) ∧
    (∀ k, k < nTest n →
      (trainTestSplit perm (nTest n) X y dX dY).2.1.getD k dX =
        X.getD ((perm.take (nTest n)).getD k 0) dX ∧
      (trainTestSplit perm (nTest n) X y dX dY).2.2.2.getD k dY =
        y.getD ((perm.take (nTest n)).getD k 0) dY) := by
  have hlen : perm.length = n := by
    have := hperm.length_eq
    simpa using this
  have hnodup : perm.Nodup := hperm.nodup_iff.mpr (List.nodup_range n)
  have htake : (perm.take (nTest n)).length = nTest n := by
    rw [List.length_take, hlen]
    exact Nat.min_eq_left (nTest_le n)
  have hdrop : (perm.drop (nTest n)).length = nTrain n := by
    rw [List.length_drop, hlen]
    have := nTest_add_nTrain n
    omega
  refine ⟨?_, ?_, ?_, ?_, ?_⟩
  · intro i
    have hsplit : perm.take (nTest n) ++ perm.drop (nTest n) = perm :=
      List.take_append_drop _ _
    constructor
    · intro h
      have : i ∈ perm := by
        rw [← hsplit, List.mem_append]
        exact h.symm
      exact List.mem_range.mp (hperm.mem_iff.mp this)
    · intro h
      have : i ∈ perm := hperm.mem_iff.mpr (List.mem_range.mpr h)
      rw [← hsplit, List.mem_append] at this
      exact this.symm
  · intro i hte htr
    exact List.disjoint_take_drop hnodup le_rfl hte htr
  · unfold trainTestSplit selectRows
    simp only [List.length_map, htake, hdrop]
    exact ⟨trivial, trivial, trivial, trivial⟩
  · intro k hk
    constructor
    · exact selectRows_getD X (perm.drop (nTest n)) dX k (by rw [hdrop]; exact hk)
    · exact selectRows_getD y (perm.drop (nTest n)) dY k (by rw [hdrop]; exact hk)
  · intro k hk
    constructor
    · exact selectRows_getD X (perm.take (nTest n)) dX k (by rw [htake]; exact hk)
    · exact selectRows_getD y (perm.take (nTest n)) dY k (by rw [htake]; exact hk)

/-- C5 witness: five rows, the permutation `[4, 2, 0, 3, 1]` (a
permutation of `range 5`), one test row and four train rows; the first
train feature row and train target entry both come from original row 2. -/
theorem c5_split_partition_witness :
    ((0 ∈ [4, 2, 0, 3, 1].drop (nTest 5) ∨ 0 ∈ [4, 2, 0, 3, 1].take (nTest 5)) ↔ 0 < 5) ∧
    (trainTestSplit [4, 2, 0, 3, 1] (nTest 5) [10, 20, 30, 40, 50] [1, 2, 3, 4, 5] 0 0).1.getD 0 0 =
      [10, 20, 30, 40, 50].getD (([4, 2, 0, 3, 1].drop (nTest 5)).getD 0 0) 0 :=
  ⟨(c5_split_partition 5 [4, 2, 0, 3, 1] [10, 20, 30, 40, 50] ([1, 2, 3, 4, 5] : List ℤ)
      0 0 (by decide) (by decide) (by decide)).1 0,
   ((c5_split_partition 5 [4, 2, 0, 3, 1] [10, 20, 30, 40, 50] ([1, 2, 3, 4, 5] : List ℤ)
      0 0 (by decide) (by decide) (by decide)).2.2.2.1 0 (by decide)).1⟩

/-! ## Reducer component-selection lemmas -/

theorem cumRatios_length (l : List ℚ) : (cumRatios l).length = l.length := by
  induction l with
  | nil => rfl
  | cons r rs ih => simp [cumRatios, ih]

theorem cumRatios_getElem (l : List ℚ) (i : ℕ) (h : i < (cumRatios l).length) :
    (cumRatios l)[i] = (l.take (i + 1)).sum := by
  induction l generalizing i with
  | nil => simp [cumRatios] at h
  | cons r rs ih =>
    cases i with
    | zero => simp [cumRatios]
    | succ i =>
      have hi : i < (cumRatios rs).length := by
        simpa [cumRatios] using h
      simp [cumRatios, List.getElem_map, ih i hi]

theorem cumRatios_eq_map (l : List ℚ) :
    cumRatios l = (List.range l.length).map (fun i => (l.take (i + 1)).sum) := by
  apply List.ext_getElem
  · simp [cumRatios_length]
  · intro i h1 h2
    rw [cumRatios_getElem l i h1, List.getElem_map, List.getElem_range]

theorem pcaNComponents_eq_countP (l : List ℚ) (t : ℚ) :
    pcaNComponents l t =
      (List.range l.length).countP (fun i => decide ((l.take (i + 1)).sum ≤ t)) + 1 := by
  unfold pcaNComponents
  rw [cumRatios_eq_map, List.countP_map]
  rfl

theorem take_sum_le_sum (l : List ℚ) (h : ∀ r ∈ l, 0 ≤ r) (j : ℕ) :
    (l.take j).sum ≤ l.sum := by
  conv_rhs => rw [← List.take_append_drop j l]
  rw [List.sum_append]
  have hd : 0 ≤ (l.drop j).sum :=
    List.sum_nonneg (fun r hr => h r (List.drop_subset j l hr))
  linarith

theorem take_sum_mono (l : List ℚ) (h : ∀ r ∈ l, 0 ≤ r) {j i : ℕ} (hij : j ≤ i) :
    (l.take j).sum ≤ (l.take i).sum := by
  have hsub : (l.take i).take j = l.take j := by
    rw [List.take_take, Nat.min_eq_left hij]
  rw [← hsub]
  exact take_sum_le_sum (l.take i) (fun r hr => h r (List.take_subset i l hr)) j

/-- Counting a downward-closed predicate over `range n`: an index
satisfies the predicate exactly when it lies below the count. -/
theorem range_countP_dc (p : ℕ → Bool) :
    ∀ n : ℕ, (∀ i j, j ≤ i → p i = true → p j = true) →
      ∀ i, i < n → (p i = true ↔ i < (List.range n).countP p) := by
  intro n
  induction n with
  | zero => intro _ i hi; omega
  | succ n ih =>
    intro dc i hi
    rw [List.range_succ, List.countP_append]
    cases hpn : p n with
    | false =>
      have hone : List.countP p [n] = 0 := by simp [List.countP_cons, hpn]
      rw [hone, Nat.add_zero]
      rcases Nat.lt_or_ge i n with hin | hin
      · exact ih dc i hin
      · have hieq : i = n := by omega
        rw [hieq]
        constructor
        · intro h; rw [h] at hpn; exact Bool.noConfusion hpn
        · intro h
          have hle : (List.range n).countP p ≤ n := by
            have := List.countP_le_length p (l := List.range n)
            simpa using this
          omega
    | true =>
      have hall : ∀ a ∈ List.range n, p a := by
        intro a ha
        exact dc n a (Nat.le_of_lt (List.mem_range.mp ha)) hpn
      have hfull : (List.range n).countP p = n := by
        have := List.countP_eq_length.mpr hall
        simpa using this
      have hone : List.countP p [n] = 1 := by simp [List.countP_cons, hpn]
      rw [hfull, hone]
      constructor
      · intro _; omega
      · intro _
        exact dc n i (by omega) hpn

/-- The selection rule of `PCA(n_components=t)` retains the least `k` whose
prefix of the explained-variance ratios sums strictly above `t`. -/
theorem pcaNComponents_min (l : List ℚ) (t : ℚ) (hnn : ∀ r ∈ l, 0 ≤ r)
    (ht0 : 0 ≤ t) (hts : t < l.sum) :
    t < (l.take (pcaNComponents l t)).sum ∧
    ∀ k, k < pcaNComponents l t → (l.take k).sum ≤ t := by
  have hne : l ≠ [] := by
    intro h
    rw [h] at hts
    simp at hts
    linarith
  have hn : 0 < l.length := List.length_pos.mpr hne
  have dc : ∀ i j, j ≤ i → (fun i => decide ((l.take (i + 1)).sum ≤ t)) i = true →
      (fun i => decide ((l.take (i + 1)).sum ≤ t)) j = true := by
    intro i j hj hi
    simp only [decide_eq_true_eq] at *
    exact le_trans (take_sum_mono l hnn (by omega)) hi
  have hiff := range_countP_dc (fun i => decide ((l.take (i + 1)).sum ≤ t)) l.length dc
  set c := (List.range l.length).countP (fun i => decide ((l.take (i + 1)).sum ≤ t)) with hc
  have hKeq : pcaNComponents l t = c + 1 := pcaNComponents_eq_countP l t
  have hcle : c ≤ l.length := by
    have := List.countP_le_length (fun i => decide ((l.take (i + 1)).sum ≤ t))
      (l := List.range l.length)
    simpa [hc] using this
  have hclt : c < l.length := by
    rcases Nat.lt_or_ge c l.length with h | h
    · exact h
    · exfalso
      have hceq : c = l.length := le_antisymm hcle h
      have hlast := (hiff (l.length - 1) (by omega)).mpr (by omega)
      simp only [decide_eq_true_eq] at hlast
      have htop : l.length - 1 + 1 = l.length := by omega
      rw [htop, List.take_length] at hlast
      linarith
  constructor
  · rw [hKeq]
    by_contra hle
    push_neg at hle
    have : c < c := (hiff c hclt).mp (by simpa using decide_eq_true hle)
    omega
  · intro k hk
    rw [hKeq] at hk
    cases k with
    | zero => simpa using ht0
    | succ m =>
      have hm : m < c := by omega
      have := (hiff m (by omega)).mpr hm
      simpa using this

/-- C1 counterexample: the explained-variance spectrum `[4/5, 1/5]`
(realised e.g. by standardized two-column data with correlation `3/5`,
whose correlation matrix has eigenvalues `8/5` and `2/5`).  The smallest
`k` whose cumulative ratio meets or exceeds `0.8` is `1`, but the code's
`searchsorted(..., side='right') + 1` rule retains `2` components: on
exact equality with the target, sklearn keeps one more component than the
`≥` rule demands. -/
theorem c1_pca_ge_rule_counterexample :
    pcaNComponents [4/5, 1/5] (4/5) = 2 ∧
    minCompGE [4/5, 1/5] (4/5) = 1 ∧
    (4/5 : ℚ) ≤ ([(4 : ℚ)/5, 1/5].take 1).sum ∧
    (∀ r ∈ [(4 : ℚ)/5, 1/5], 0 ≤ r) ∧ ([(4 : ℚ)/5, 1/5]).sum = 1 := by
  refine ⟨?_, ?_, by norm_num, by norm_num, by norm_num⟩
  · unfold pcaNComponents
    norm_num [cumRatios, List.countP_cons, List.countP_nil]
  · unfold minCompGE
    norm_num [List.range_succ, List.find?]

/-- C1 (amended): for every valid explained-variance-ratio spectrum
(non-negative entries summing to 1), the number of components retained by
`PCA(n_components=0.8)` is the minimum `k` such that the cumulative
explained-variance ratio over the first `k` components STRICTLY exceeds
`0.8`; when a prefix hits `0.8` exactly, the code retains one component
more than the meets-or-exceeds rule of the claim (see the
counterexample). -/
theorem c1_pca_retained_components (l : List ℚ) (hnn : ∀ r ∈ l, 0 ≤ r)
    (hsum : l.sum = 1) :
    (4/5 : ℚ) < (l.take (pcaNComponents l (4/5))).sum ∧
    ∀ k, k < pcaNComponents l (4/5) → (l.take k).sum ≤ 4/5 :=
  pcaNComponents_min l (4/5) hnn (by norm_num) (by rw [hsum]; norm_num)

/-- C1 witness: the spectrum `[1/2, 1/2]` retains both components and
indeed `1/2 ≤ 4/5 < 1`. -/
theorem c1_pca_retained_components_witness :
    (4/5 : ℚ) < ([(1 : ℚ)/2, 1/2].take (pcaNComponents [1/2, 1/2] (4/5))).sum ∧
    ∀ k, k < pcaNComponents [(1 : ℚ)/2, 1/2] (4/5) →
      ([(1 : ℚ)/2, 1/2].take k).sum ≤ 4/5 :=
  c1_pca_retained_components [1/2, 1/2] (by norm_num) (by norm_num)

/-- C10: 'Life expectancy' is one of the numeric columns, and the mean
imputation of lines 19-20 runs before the target is separated at line 28.
So when the target column has missing entries (and every numeric column
has at least one observed value, so the stage succeeds), the extracted
target is the imputed column: it contains no missing entries (it is a
total list of rationals of the original length), and each
previously-missing life-expectancy value has been silently replaced by
the column's observed mean. -/
theorem c10_target_imputed_before_separation
    (df : List (String × List (Option ℚ))) (c : List (Option ℚ))
    (hfind : df.find? (fun p => p.1 = "Life expectancy") = some ("Life expectancy", c))
    (hall : df.all (fun p => p.2.any Option.isSome) = true) :
    pipelineTarget df = .ok (imputeCol c) ∧
    (imputeCol c).length = c.length ∧
    (∀ i, i < c.length → c.getD i none = none →
      (imputeCol c).getD i 0 = obsMean c) := by
  refine ⟨?_, imputeCol_length c, fun i hi hnone => imputeCol_getD_of_none c i hi hnone⟩
  unfold pipelineTarget imputeNamed
  rw [if_pos hall]
  simp only [Except.map]
  unfold lookupCol
  rw [List.find?_map]
  have hpred : ((fun p : String × List ℚ => decide (p.1 = "Life expectancy")) ∘
      (fun p : String × List (Option ℚ) => (p.1, imputeCol p.2))) =
      (fun p : String × List (Option ℚ) => decide (p.1 = "Life expectancy")) := rfl
  rw [hpred, hfind]
  rfl

/-- C10 witness: a two-column frame whose target column is
`[some 70, none]`; the run extracts the target `[70, 70]`, with the
missing value filled by the target column's own mean. -/
theorem c10_target_imputed_before_separation_witness :
    pipelineTarget [("Life expectancy", [some 70, none]), ("GDP", [some 1, some 2])] =
      .ok (imputeCol [some 70, none]) ∧
    (imputeCol [some 70, none]).getD 1 0 = obsMean [some 70, none] :=
  ⟨(c10_target_imputed_before_separation
      [("Life expectancy", [some 70, none]), ("GDP", [some 1, some 2])]
      [some 70, none] (by decide) (by decide)).1,
   (c10_target_imputed_before_separation
      [("Life expectancy", [some 70, none]), ("GDP", [some 1, some 2])]
      [some 70, none] (by decide) (by decide)).2.2 1 (by decide) (by decide)⟩

/-! ## Scaler lemmas -/

theorem scalerFit_means_getD (X : List (List ℝ)) (j : ℕ) (hj : j < numCols X) :
    (scalerFit X).means.getD j 0 = colMeanR (colAt X j) := by
  unfold scalerFit
  rw [List.getD_eq_getElem _ _ (by simpa using hj), List.getElem_map,
    List.getElem_range]

theorem scalerFit_stds_getD (X : List (List ℝ)) (j : ℕ) (hj : j < numCols X) :
    (scalerFit X).stds.getD j 1 = scaleOf (colAt X j) := by
  unfold scalerFit
  rw [List.getD_eq_getElem _ _ (by simpa using hj), List.getElem_map,
    List.getElem_range]

theorem colVarR_nonneg (c : List ℝ) : 0 ≤ colVarR c := by
  unfold colVarR
  apply div_nonneg
  · apply List.sum_nonneg
    intro x hx
    obtain ⟨y, _, rfl⟩ := List.mem_map.mp hx
    positivity
  · exact Nat.cast_nonneg c.length

/-- C2: the scaler's transform maps the entry at row `i`, column `j` of
any matrix — in particular the test matrix of the pipeline's
`scaler.transform(X_test)` — to `(x - mean_j) / std_j`, where `mean_j`
and `std_j` are the statistics `scaler.fit` computed from the TRAINING
matrix's column `j`.  The right-hand side mentions only `Xtr`: the
statistics are fixed at fit time and no test-set statistic is ever
used. -/
theorem c2_scaler_uses_training_stats (Xtr Xte : List (List ℝ)) (i j : ℕ)
    (hi : i < Xte.length) (hj : j < (Xte.getD i []).length) (hjc : j < numCols Xtr) :
    ((scalerStage Xtr Xte).2.getD i []).getD j 0 =
      ((Xte.getD i []).getD j 0 - colMeanR (colAt Xtr j)) / scaleOf (colAt Xtr j) := by
  have hrow : Xte.getD i [] = Xte[i] := List.getD_eq_getElem _ _ hi
  rw [hrow] at hj ⊢
  unfold scalerStage scalerTransform
  rw [List.getD_eq_getElem
    (Xte.map (fun row => (List.range row.length).map (fun k =>
      (row.getD k 0 - (scalerFit Xtr).means.getD k 0) /
        (scalerFit Xtr).stds.getD k 1))) []
    (by simpa using hi)]
  rw [List.getElem_map]
  rw [List.getD_eq_getElem
    ((List.range (Xte[i].length)).map (fun k =>
      ((Xte[i]).getD k 0 - (scalerFit Xtr).means.getD k 0) /
        (scalerFit Xtr).stds.getD k 1)) 0
    (by simpa using hj)]
  rw [List.getElem_map, List.getElem_range,
    scalerFit_means_getD Xtr j hjc, scalerFit_stds_getD Xtr j hjc]

/-- C2 witness: training matrix `[[0], [2]]` (mean 1, standard deviation
1) and test row `[[3]]`; the transformed test entry is `(3 - 1) / 1 = 2`,
computed from the training statistics. -/
theorem c2_scaler_uses_training_stats_witness :
    ((scalerStage [[0], [2]] [[3]]).2.getD 0 []).getD 0 0 =
      (([[(3 : ℝ)]].getD 0 []).getD 0 0 - colMeanR (colAt [[0], [2]] 0)) /
        scaleOf (colAt [[0], [2]] 0) ∧
    ((scalerStage [[(0 : ℝ)], [2]] [[3]]).2.getD 0 []).getD 0 0 = 2 := by
  have happ := c2_scaler_uses_training_stats [[0], [2]] [[3]] 0 0
    (by simp) (by simp) (by simp [numCols])
  refine ⟨happ, ?_⟩
  rw [happ]
  have hcol : colAt [[(0 : ℝ)], [2]] 0 = [0, 2] := by simp [colAt]
  have hmean : colMeanR [(0 : ℝ), 2] = 1 := by norm_num [colMeanR]
  have hvar : colVarR [(0 : ℝ), 2] = 1 := by norm_num [colVarR, hmean]
  have hscale : scaleOf [(0 : ℝ), 2] = 1 := by
    rw [scaleOf, hvar, if_neg one_ne_zero, Real.sqrt_one]
  rw [hcol, hmean, hscale]
  norm_num

/-- C6 counterexample: on the training matrix `[[1], [1]]`, whose single
column has zero variance, `scaler.fit` does NOT fail: sklearn's
`_handle_zeros_in_scale` stores scale 1 for the zero-variance column, and
the subsequent transform is well defined (the constant column maps to
zeros, with no division by zero and no error raised). -/
theorem c6_zero_variance_fit_succeeds :
    scalerFit [[(1 : ℝ)], [1]] = ⟨[1], [1]⟩ ∧
    scalerTransform [[(1 : ℝ)], [1]] (scalerFit [[1], [1]]) = [[0], [0]] := by
  have hcol : colAt [[(1 : ℝ)], [1]] 0 = [1, 1] := by simp [colAt]
  have hmean : colMeanR [(1 : ℝ), 1] = 1 := by norm_num [colMeanR]
  have hvar : colVarR [(1 : ℝ), 1] = 0 := by norm_num [colVarR, hmean]
  have hscale : scaleOf [(1 : ℝ), 1] = 1 := by rw [scaleOf, hvar, if_pos rfl]
  have hr1 : List.range 1 = [0] := by decide
  have hfit : scalerFit [[(1 : ℝ)], [1]] = ⟨[1], [1]⟩ := by
    unfold scalerFit numCols
    simp [hr1, hcol, hmean, hscale]
  refine ⟨hfit, ?_⟩
  rw [hfit]
  unfold scalerTransform
  simp [hr1]

/-- C6 (amended): `scaler.fit` succeeds on every training matrix,
zero-variance columns included: the fitted scale of every column is
strictly positive — so the later division never divides by zero — and a
zero-variance column's scale is exactly 1 (sklearn's
`_handle_zeros_in_scale`), rather than the fit failing with an
invalid-input error as the claim states. -/
theorem c6_zero_variance_scale_one (X : List (List ℝ)) (j : ℕ)
    (hj : j < numCols X) :
    0 < (scalerFit X).stds.getD j 1 ∧
    (colVarR (colAt X j) = 0 → (scalerFit X).stds.getD j 1 = 1) := by
  rw [scalerFit_stds_getD X j hj]
  unfold scaleOf
  by_cases hv : colVarR (colAt X j) = 0
  · simp [hv]
  · rw [if_neg hv]
    constructor
    · exact Real.sqrt_pos.mpr (lt_of_le_of_ne (colVarR_nonneg _) (Ne.symm hv))
    · intro h
      exact absurd h hv

/-- C6 amended-claim witness: the constant training matrix `[[1], [1]]`
has a positive fitted scale for its zero-variance column. -/
theorem c6_zero_variance_scale_one_witness :
    0 < (scalerFit [[(1 : ℝ)], [1]]).stds.getD 0 1 ∧
    (colVarR (colAt [[(1 : ℝ)], [1]] 0) = 0 →
      (scalerFit [[(1 : ℝ)], [1]]).stds.getD 0 1 = 1) :=
  c6_zero_variance_scale_one [[(1 : ℝ)], [1]] 0 (by simp [numCols])

/-- C8: in the PCA stage, the fitted state comes from the training matrix
alone (`pca.fit_transform(X_train_scaled)`), and the test matrix is
transformed with exactly that state (`pca.transform(X_test_scaled)`),
never refit.  For every input matrix, the transform keeps the row count
and produces rows with exactly `k` entries, where `k` is the number of
retained components of the fitted state. -/
theorem c8_pca_transform_shape (fit : List (List ℚ) → PCAState)
    (Xtr Xte : List (List ℚ)) :
    (pcaStage fit Xtr Xte).1 = pcaTransform Xtr (fit Xtr) ∧
    (pcaStage fit Xtr Xte).2 = pcaTransform Xte (fit Xtr) ∧
    (∀ X : List (List ℚ), (pcaTransform X (fit Xtr)).length = X.length) ∧
    (∀ X : List (List ℚ), ∀ r ∈ pcaTransform X (fit Xtr),
      r.length = (fit Xtr).components.length) := by
  refine ⟨rfl, rfl, fun X => List.length_map X _, ?_⟩
  intro X r hr
  obtain ⟨row, _, rfl⟩ := List.mem_map.mp hr
  exact List.length_map _ _

/-- C8 witness: a fixed two-component state applied through the stage to
a two-row test matrix gives two projected rows with two entries each. -/
theorem c8_pca_transform_shape_witness :
    (pcaTransform [[(3 : ℚ), 4], [5, 6]] (PCAState.mk [[1, 0], [0, 1]])).length = 2 ∧
    (pcaStage (fun _ => PCAState.mk [[1, 0], [0, 1]]) [[(1 : ℚ), 2]] [[3, 4], [5, 6]]).2 =
      pcaTransform [[(3 : ℚ), 4], [5, 6]] (PCAState.mk [[1, 0], [0, 1]]) :=
  ⟨(c8_pca_transform_shape (fun _ => PCAState.mk [[1, 0], [0, 1]])
      [[(1 : ℚ), 2]] [[3, 4], [5, 6]]).2.2.1 [[3, 4], [5, 6]],
   (c8_pca_transform_shape (fun _ => PCAState.mk [[1, 0], [0, 1]])
      [[(1 : ℚ), 2]] [[3, 4], [5, 6]]).2.1⟩

/-- C3 counterexample: when the first dump (`scaler.pkl`, line 44)
succeeds and the second dump (`pca.pkl`, line 45) fails, the run
terminates with a surfaced error having written exactly one artifact —
an outcome the claim says does not exist.  The two writes are sequential
and non-atomic. -/
theorem c3_single_artifact_counterexample :
    persistStage (.ok ()) (.error "No space left on device") =
      (["scaler.pkl"], .error "No space left on device") ∧
    (persistStage (.ok ()) (.error "No space left on device")).1.length = 1 := by
  exact ⟨rfl, rfl⟩

/-- C3 (amended): a run that completes writes both artifacts, and a run
that fails writes either no artifact or only the scaler artifact (when
the failure strikes the second dump); the reducer artifact is never
present without the scaler artifact, but an outcome with exactly the
scaler artifact does exist. -/
theorem c3_artifact_outcomes (w1 w2 : Except String Unit) :
    ((persistStage w1 w2).2 = .ok () →
      (persistStage w1 w2).1 = ["scaler.pkl", "pca.pkl"]) ∧
    ("pca.pkl" ∈ (persistStage w1 w2).1 →
      (persistStage w1 w2).1 = ["scaler.pkl", "pca.pkl"] ∧
      (persistStage w1 w2).2 = .ok ()) ∧
    ((persistStage w1 w2).1 = [] ∨ (persistStage w1 w2).1 = ["scaler.pkl"] ∨
      (persistStage w1 w2).1 = ["scaler.pkl", "pca.pkl"]) := by
  cases w1 with
  | error e => simp [persistStage]
  | ok u =>
    cases w2 with
    | error e => simp [persistStage]
    | ok v => simp [persistStage]

/-- C3 amended-claim witness: a fully successful run writes both
artifacts. -/
theorem c3_artifact_outcomes_witness :
    (persistStage (.ok ()) (.ok ())).1 = ["scaler.pkl", "pca.pkl"] :=
  (c3_artifact_outcomes (.ok ()) (.ok ())).1 rfl

end ScalerPca
